import Mathlib

/-!
Verification of the chat-reply normalization and fallback-matching engine of
`app.py` (the ConectaTI portal).  Strings are modelled as `List Char`.  The
Python whitespace/line-break character classes are modelled by `isSpace` and
`isBreak` below (the set of code points recognised by CPython's
`Py_UNICODE_ISSPACE` and `str.splitlines`).  Python's `str.lower` is modelled
on its ASCII fragment (`Char.toLower`); every keyword of the fallback table is
already lower-case, and the non-ASCII letters occurring in them are lower-case
code points that `str.lower` leaves unchanged, so this does not affect the
matcher's behaviour on the inputs the claims are about.  Python's `\d` is
modelled by ASCII `Char.isDigit`.
-/

set_option maxRecDepth 20000

/-- Python whitespace test (`str.isspace`, the class matched by `\s` and used
by `str.split`/`str.strip`). -/
def isSpace (c : Char) : Bool :=
  c == ' ' || c == '\t' || c == '\n' || c == '\u000B' || c == '\u000C' || c == '\r' ||
  c == '\u001C' || c == '\u001D' || c == '\u001E' || c == '\u001F' || c == '\u0085' ||
  c == '\u00A0' || c == '\u1680' || c == '\u2000' || c == '\u2001' || c == '\u2002' ||
  c == '\u2003' || c == '\u2004' || c == '\u2005' || c == '\u2006' || c == '\u2007' ||
  c == '\u2008' || c == '\u2009' || c == '\u200A' || c == '\u2028' || c == '\u2029' ||
  c == '\u202F' || c == '\u205F' || c == '\u3000'

/-- Line-boundary characters of Python's `str.splitlines`. -/
def isBreak (c : Char) : Bool :=
  c == '\n' || c == '\r' || c == '\u000B' || c == '\u000C' || c == '\u001C' ||
  c == '\u001D' || c == '\u001E' || c == '\u0085' || c == '\u2028' || c == '\u2029'

/-- Prepend a character to the first element of a list of lines/words
(creating a singleton when the list is empty). -/
def consHead (c : Char) : List (List Char) → List (List Char)
  | [] => [[c]]
  | l :: ls => (c :: l) :: ls

/-- Split on single line-boundary characters (`\r\n` already fused). -/
def splitB : List Char → List (List Char)
  | [] => []
  | c :: cs => if isBreak c then [] :: splitB cs else consHead c (splitB cs)

/-- Fuse each `\r\n` pair into a single `\n` (the pair is one boundary for
`str.splitlines`). -/
def fixCRLF : List Char → List Char
  | [] => []
  | [c] => [c]
  | c :: d :: cs =>
    if c = '\r' ∧ d = '\n' then '\n' :: fixCRLF cs else c :: fixCRLF (d :: cs)

/-- Python `str.splitlines()`. -/
def splitlines (l : List Char) : List (List Char) := splitB (fixCRLF l)

/-- Python `"\n".join(...)`. -/
def joinNL : List (List Char) → List Char
  | [] => []
  | [l] => l
  | l :: l2 :: ls => l ++ '\n' :: joinNL (l2 :: ls)

/-- Python `" ".join(...)`. -/
def joinSp : List (List Char) → List Char
  | [] => []
  | [w] => w
  | w :: w2 :: ws => w ++ ' ' :: joinSp (w2 :: ws)

/-- Python `str.lstrip()`. -/
def pyLstrip (l : List Char) : List Char := l.dropWhile isSpace

/-- Python `str.rstrip()`. -/
def pyRstrip (l : List Char) : List Char := (l.reverse.dropWhile isSpace).reverse

/-- Python `str.strip()`. -/
def pyStrip (l : List Char) : List Char := pyRstrip (pyLstrip l)

/-- Worker for `collapse`: `n` counts the pending run of consecutive `\n`
characters; a run of `k` newlines is emitted as `min k 2` newlines, which is
exactly the effect of `re.sub(r'\n{3,}', '\n\n', ...)`. -/
def collapseAux : List Char → Nat → List Char
  | [], n => List.replicate (min n 2) '\n'
  | c :: cs, n =>
    if c = '\n' then collapseAux cs (n + 1)
    else List.replicate (min n 2) '\n' ++ c :: collapseAux cs 0

/-- `re.sub(r'\n{3,}', '\n\n', l)`. -/
def collapse (l : List Char) : List Char := collapseAux l 0

/-- Is there a run of three (or more) consecutive newline characters. -/
def hasTriple : List Char → Bool
  | [] => false
  | c :: cs => if c = '\n' ∧ cs.take 2 = ['\n', '\n'] then true else hasTriple cs

/-- The character class `[\.)\-:]` of the marker regex. -/
def isPunct (c : Char) : Bool := c == '.' || c == ')' || c == '-' || c == ':'

/-- Matcher for the anchored regex `^\s*(?:\d+|[•\-])[\.)\-:]\s*` of
`_denumerate`: returns the tail after the punctuation character when the
marker pattern matches at the start of the line (the trailing `\s*` is
consumed by `stripMarker`), and `none` when it does not match.  Greedy
matching with backtracking degenerates to this deterministic scan because no
whitespace character is a digit or a bullet glyph and no digit is in the
punctuation class. -/
def markerTail (l : List Char) : Option (List Char) :=
  match l.dropWhile isSpace with
  | [] => none
  | c :: cs =>
    if c.isDigit then
      match cs.dropWhile Char.isDigit with
      | p :: t => if isPunct p then some t else none
      | [] => none
    else if c = '•' ∨ c = '-' then
      match cs with
      | p :: t => if isPunct p then some t else none
      | [] => none
    else none

/-- `re.sub(r'^\s*(?:\d+|[•\-])[\.)\-:]\s*', '', l)` — at most one removal,
since the pattern is anchored and at least two characters long. -/
def stripMarker (l : List Char) : List Char :=
  match markerTail l with
  | some t => t.dropWhile isSpace
  | none => l

/-- `_denumerate` from `app.py`: per-line marker removal, rejoin with `\n`,
strip the whole result, collapse runs of 3-or-more newlines to 2. -/
def _denumerate (text : List Char) : List Char :=
  collapse (pyStrip (joinNL ((splitlines text).map stripMarker)))

/-- Python `str.split()` (split on whitespace runs, dropping empty tokens). -/
def pySplit : List Char → List (List Char)
  | [] => []
  | c :: cs =>
    if isSpace c then pySplit cs
    else
      match cs with
      | [] => [[c]]
      | d :: _ => if isSpace d then [c] :: pySplit cs else consHead c (pySplit cs)

/-- Number of whitespace-delimited words. -/
def wordCount (l : List Char) : Nat := (pySplit l).length

/-- The literal ellipsis suffix `"..."`. -/
def dots : List Char := ['.', '.', '.']

/-- `_clean` from `app.py` (`t` is the denumerated text, `words = t.split()`;
`words[:max_words]` is joined with single spaces, right-stripped, and suffixed
with `"..."` when the word count exceeds the budget). -/
def _clean (text : List Char) (max_words : Nat) : List Char :=
  if (pySplit (_denumerate text)).length > max_words then
    pyRstrip (joinSp ((pySplit (_denumerate text)).take max_words)) ++ dots
  else _denumerate text

/-- Convert a string literal to the `List Char` model. -/
def kw (s : String) : List Char := s.toList

/-- `startsWithL hay needle`: does `hay` start with `needle`. -/
def startsWithL : List Char → List Char → Bool
  | _, [] => true
  | [], _ :: _ => false
  | a :: as, b :: bs => a == b && startsWithL as bs

/-- Python `needle in hay` (substring containment). -/
def substr : List Char → List Char → Bool
  | needle, [] => needle.isEmpty
  | needle, c :: t => startsWithL (c :: t) needle || substr needle t

/-- The `_FALLBACK` rule table of `app.py`, in its (insertion-order) fixed
iteration order: pairs of keyword set and canned reply. -/
def _FALLBACK : List (List (List Char) × List Char) :=
  [ ([kw "currículo", kw "curriculo", kw "cv", kw "resumo"],
     kw "Use uma página com conquistas mensuráveis, destaque 3–5 projetos relevantes, organize tecnologias por nível e inclua links de GitHub e LinkedIn."),
    ([kw "entrevista", kw "recrutador", kw "processo"],
     kw "Pesquise a empresa, explique projetos com desafios e resultados, mostre aprendizados e leve perguntas objetivas para o final."),
    ([kw "estágio", kw "estagio", kw "junior", kw "primeiro emprego"],
     kw "Monte um portfólio simples, contribua em projetos abertos, participe de eventos, mantenha o LinkedIn ativo e envie candidaturas com regularidade."),
    ([kw "conectati", kw "site", kw "cadastro", kw "contato", kw "o que é", kw "o que e"],
     kw "Veja ‘O que é’ para entender a proposta, cadastre-se no topo, fale conosco pelo formulário e confira vagas na Home usando o e-mail do UniCEUB.") ]

/-- `_DEFAULT_FALLBACK` from `app.py`. -/
def _DEFAULT_FALLBACK : List Char :=
  kw "Explique seu objetivo e contexto, liste habilidades atuais e projetos, peça feedback específico e compartilhe links de GitHub e LinkedIn."

/-- Does some keyword of the rule occur in the (lowered) text —
`any(k in low for k in keys)`. -/
def ruleHit (low : List Char) (rule : List (List Char) × List Char) : Bool :=
  rule.1.any (fun k => substr k low)

/-- The `for keys, rep in _FALLBACK.items()` loop of `_fallback_reply`. -/
def matchRules : List (List (List Char) × List Char) → List Char → Option (List Char)
  | [], _ => none
  | rule :: rest, low => if ruleHit low rule then some rule.2 else matchRules rest low

/-- `_fallback_reply` from `app.py`. -/
def _fallback_reply (text : List Char) : List Char :=
  match matchRules _FALLBACK (text.map Char.toLower) with
  | some rep => rep
  | none => _DEFAULT_FALLBACK

/-- Outcome of `POST /api/chat`: either the 400 "message required" rejection
or a JSON reply payload. -/
inductive ChatResult where
  | invalidRequest : ChatResult
  | reply : List Char → ChatResult
deriving DecidableEq

/-- `api_chat` from `app.py`.  The external generation collaborator is a
parameter: `none` models `_model` being unset, `some (Except.ok t)` models a
successful `generate_content` call whose `resp.text` is `t` (with `None`
modelled as the empty string), and `some (Except.error ())` models the call
raising an exception.  The `except` clause makes the function total: a
collaborator exception is never propagated, it yields the fallback reply. -/
def api_chat (message : List Char) (model : Option (Except Unit (List Char))) : ChatResult :=
  let user_message := pyStrip message
  if user_message = [] then ChatResult.invalidRequest
  else
    match model with
    | some (Except.ok t) =>
      let reply0 := pyStrip t
      let reply1 := if reply0 = [] then _fallback_reply user_message else reply0
      ChatResult.reply (_clean reply1 120)
    | some (Except.error _) => ChatResult.reply (_fallback_reply user_message)
    | none => ChatResult.reply (_fallback_reply user_message)


/-! ### Basic facts about the character classes and generic list helpers -/

theorem isSpace_of_isBreak {c : Char} (h : isBreak c = true) : isSpace c = true := by
  simp only [isBreak, Bool.or_eq_true, beq_iff_eq] at h
  rcases h with (((((((((h|h)|h)|h)|h)|h)|h)|h)|h)|h) <;> subst h <;> rfl

theorem head?_append_left {u v : List Char} (h : u ≠ []) : (u ++ v).head? = u.head? := by
  cases u with
  | nil => exact absurd rfl h
  | cons a as => rfl

theorem getLast?_eq_reverse_head? (l : List Char) : l.getLast? = l.reverse.head? := by
  rcases List.eq_nil_or_concat l with rfl | ⟨l', a, rfl⟩
  · rfl
  · rw [List.concat_eq_append, List.getLast?_concat, List.reverse_append]
    rfl

theorem getLast?_append_right {u v : List Char} (h : v ≠ []) : (u ++ v).getLast? = v.getLast? := by
  rw [getLast?_eq_reverse_head?, getLast?_eq_reverse_head? v, List.reverse_append]
  exact head?_append_left (by simpa using h)

theorem getLast?_cons_of_ne_nil {a : Char} {l : List Char} (h : l ≠ []) :
    (a :: l).getLast? = l.getLast? := by
  have ha : a :: l = [a] ++ l := rfl
  rw [ha, getLast?_append_right h]

theorem getLast?_mem : ∀ {l : List Char} {c : Char}, l.getLast? = some c → c ∈ l := by
  intro l c h
  rcases List.eq_nil_or_concat l with rfl | ⟨l', a, rfl⟩
  · simp at h
  · rw [List.concat_eq_append, List.getLast?_concat] at h
    cases h
    simp

theorem exists_getLast?_of_ne_nil {l : List Char} (h : l ≠ []) : ∃ c, l.getLast? = some c := by
  rcases List.eq_nil_or_concat l with rfl | ⟨l', a, rfl⟩
  · exact absurd rfl h
  · exact ⟨a, by rw [List.concat_eq_append]; exact List.getLast?_concat _⟩

theorem dropWhile_head?_false {p : Char → Bool} :
    ∀ {l : List Char} {c : Char}, (l.dropWhile p).head? = some c → p c = false := by
  intro l
  induction l with
  | nil => intro c h; simp [List.dropWhile] at h
  | cons a as ih =>
    intro c h
    rw [List.dropWhile_cons] at h
    split at h
    · exact ih h
    · simp only [List.head?_cons, Option.some.injEq] at h
      subst h
      simpa using ‹¬ p a = true›

theorem dropWhile_eq_self_of_head? {p : Char → Bool} {l : List Char}
    (h : ∀ c, l.head? = some c → p c = false) : l.dropWhile p = l := by
  cases l with
  | nil => rfl
  | cons a as =>
    rw [List.dropWhile_cons]
    simp [h a rfl]

/-! ### Strip lemmas -/

theorem pyLstrip_prepend_spaces (l : List Char) :
    ∃ w, (∀ c ∈ w, isSpace c = true) ∧ w ++ pyLstrip l = l := by
  refine ⟨l.takeWhile isSpace, ?_, List.takeWhile_append_dropWhile isSpace l⟩
  intro c hc
  exact List.mem_takeWhile_imp hc

theorem pyRstrip_append_spaces (l : List Char) :
    ∃ w, (∀ c ∈ w, isSpace c = true) ∧ pyRstrip l ++ w = l := by
  refine ⟨(l.reverse.takeWhile isSpace).reverse, ?_, ?_⟩
  · intro c hc
    rw [List.mem_reverse] at hc
    exact List.mem_takeWhile_imp hc
  · calc pyRstrip l ++ (l.reverse.takeWhile isSpace).reverse
        = ((l.reverse.takeWhile isSpace) ++ (l.reverse.dropWhile isSpace)).reverse := by
          rw [List.reverse_append]; rfl
      _ = l.reverse.reverse := by rw [List.takeWhile_append_dropWhile isSpace l.reverse]
      _ = l := List.reverse_reverse l

theorem pyLstrip_eq_self {l : List Char} (h : ∀ c, l.head? = some c → isSpace c = false) :
    pyLstrip l = l :=
  dropWhile_eq_self_of_head? h

theorem pyRstrip_eq_self {l : List Char} (h : ∀ c, l.getLast? = some c → isSpace c = false) :
    pyRstrip l = l := by
  rw [pyRstrip, dropWhile_eq_self_of_head?, List.reverse_reverse]
  intro c hc
  rw [← getLast?_eq_reverse_head?] at hc
  exact h c hc

theorem pyStrip_eq_self {l : List Char} (h1 : ∀ c, l.head? = some c → isSpace c = false)
    (h2 : ∀ c, l.getLast? = some c → isSpace c = false) : pyStrip l = l := by
  rw [pyStrip, pyLstrip_eq_self h1, pyRstrip_eq_self h2]

theorem pyStrip_head? {l : List Char} {c : Char} (h : (pyStrip l).head? = some c) :
    isSpace c = false := by
  obtain ⟨w, _, hw⟩ := pyRstrip_append_spaces (pyLstrip l)
  have hne : pyRstrip (pyLstrip l) ≠ [] := by
    intro hnil
    rw [pyStrip, hnil] at h
    simp at h
  have : (pyLstrip l).head? = some c := by
    rw [← hw, head?_append_left hne]
    exact h
  exact dropWhile_head?_false this

theorem pyStrip_getLast? {l : List Char} {c : Char} (h : (pyStrip l).getLast? = some c) :
    isSpace c = false := by
  rw [getLast?_eq_reverse_head?] at h
  have hrev : (pyStrip l).reverse = (pyLstrip l).reverse.dropWhile isSpace := by
    rw [pyStrip, pyRstrip, List.reverse_reverse]
  rw [hrev] at h
  exact dropWhile_head?_false h

theorem pyLstrip_mem {l : List Char} {c : Char} (h : c ∈ pyLstrip l) : c ∈ l := by
  obtain ⟨w, _, hw⟩ := pyLstrip_prepend_spaces l
  rw [← hw]
  exact List.mem_append_right _ h

theorem pyRstrip_mem {l : List Char} {c : Char} (h : c ∈ pyRstrip l) : c ∈ l := by
  obtain ⟨w, _, hw⟩ := pyRstrip_append_spaces l
  rw [← hw]
  exact List.mem_append_left _ h

theorem pyStrip_mem {l : List Char} {c : Char} (h : c ∈ pyStrip l) : c ∈ l :=
  pyLstrip_mem (pyRstrip_mem h)

/-! ### Collapse lemmas -/

theorem collapseAux_newline (cs : List Char) (n : Nat) :
    collapseAux ('\n' :: cs) n = collapseAux cs (n + 1) := by
  simp [collapseAux]

theorem collapseAux_other {c : Char} (h : c ≠ '\n') (cs : List Char) (n : Nat) :
    collapseAux (c :: cs) n = List.replicate (min n 2) '\n' ++ c :: collapseAux cs 0 := by
  simp [collapseAux, h]

theorem collapseAux_ne_nil : ∀ {l : List Char}, l ≠ [] → ∀ n, collapseAux l n ≠ [] := by
  intro l
  induction l with
  | nil => intro h; exact absurd rfl h
  | cons a as ih =>
    intro _ n
    by_cases ha : a = '\n'
    · subst ha
      rw [collapseAux_newline]
      cases as with
      | nil =>
        simp only [collapseAux]
        intro hnil
        have := congrArg List.length hnil
        simp at this
      | cons b bs => exact ih (by simp) (n + 1)
    · rw [collapseAux_other ha]
      simp

theorem collapseAux_head {a : Char} (h : a ≠ '\n') (l : List Char) :
    (collapseAux (a :: l) 0).head? = some a := by
  rw [collapseAux_other h]
  rfl

theorem collapseAux_getLast? {c : Char} (hc : isSpace c = false) :
    ∀ {l : List Char} (n : Nat), l.getLast? = some c → (collapseAux l n).getLast? = some c := by
  intro l
  induction l with
  | nil => intro n h; simp at h
  | cons a as ih =>
    intro n h
    have hcn : c ≠ '\n' := by
      intro hcn; subst hcn; simp [isSpace] at hc
    cases as with
    | nil =>
      simp only [List.getLast?_singleton, Option.some.injEq] at h
      subst h
      rw [collapseAux_other hcn]
      have : collapseAux ([] : List Char) 0 = [] := rfl
      rw [this, getLast?_append_right (by simp)]
      rfl
    | cons b bs =>
      rw [getLast?_cons_of_ne_nil (by simp)] at h
      by_cases ha : a = '\n'
      · subst ha
        rw [collapseAux_newline]
        exact ih (n + 1) h
      · rw [collapseAux_other ha]
        have hne : collapseAux (b :: bs) 0 ≠ [] := collapseAux_ne_nil (by simp) 0
        rw [getLast?_append_right (by simp), getLast?_cons_of_ne_nil hne]
        exact ih 0 h

theorem mem_collapseAux : ∀ {l : List Char} {n : Nat} {c : Char},
    c ∈ collapseAux l n → c = '\n' ∨ c ∈ l := by
  intro l
  induction l with
  | nil =>
    intro n c h
    simp only [collapseAux] at h
    exact Or.inl (List.eq_of_mem_replicate h)
  | cons a as ih =>
    intro n c h
    by_cases ha : a = '\n'
    · subst ha
      rw [collapseAux_newline] at h
      rcases ih h with h' | h'
      · exact Or.inl h'
      · exact Or.inr (List.mem_cons_of_mem _ h')
    · rw [collapseAux_other ha] at h
      rcases List.mem_append.mp h with h' | h'
      · exact Or.inl (List.eq_of_mem_replicate h')
      · rcases List.mem_cons.mp h' with h'' | h''
        · exact Or.inr (h'' ▸ List.mem_cons_self _ _)
        · rcases ih h'' with h3 | h3
          · exact Or.inl h3
          · exact Or.inr (List.mem_cons_of_mem _ h3)

theorem hasTriple_cons (c : Char) (cs : List Char) :
    hasTriple (c :: cs) =
      if c = '\n' ∧ cs.take 2 = ['\n', '\n'] then true else hasTriple cs := rfl

theorem hasTriple_append_right {a b : List Char} (h : hasTriple (a ++ b) = false) :
    hasTriple b = false := by
  induction a with
  | nil => exact h
  | cons c cs ih =>
    rw [List.cons_append, hasTriple_cons] at h
    split at h
    · exact absurd h (by simp)
    · exact ih h

theorem hasTriple_of_no_newline : ∀ {l : List Char}, (∀ c ∈ l, c ≠ '\n') →
    hasTriple l = false := by
  intro l
  induction l with
  | nil => intro _; rfl
  | cons a as ih =>
    intro h
    rw [hasTriple_cons]
    have ha : ¬ (a = '\n' ∧ as.take 2 = ['\n', '\n']) := by
      intro ⟨h1, _⟩
      exact h a (List.mem_cons_self _ _) h1
    rw [if_neg ha]
    exact ih (fun c hc => h c (List.mem_cons_of_mem _ hc))

theorem hasTriple_replicate {k : Nat} (h : k ≤ 2) :
    hasTriple (List.replicate k '\n') = false := by
  interval_cases k <;> decide

theorem take_two_cons_cons (a b : Char) (z : List Char) : (a :: b :: z).take 2 = [a, b] := rfl

theorem take_two_single (a : Char) : ([a] : List Char).take 2 = [a] := rfl

theorem hasTriple_replicate_cons {k : Nat} (hk : k ≤ 2) {c : Char} (hc : c ≠ '\n')
    (z : List Char) :
    hasTriple (List.replicate k '\n' ++ c :: z) = hasTriple (c :: z) := by
  have htake : ∀ (w : List Char), (c :: w).take 2 ≠ ['\n', '\n'] := by
    intro w h
    cases w with
    | nil =>
      rw [take_two_single] at h
      simp at h
    | cons b bs =>
      rw [take_two_cons_cons] at h
      exact hc (List.cons.inj h).1
  interval_cases k
  · rfl
  · show hasTriple ('\n' :: c :: z) = _
    rw [hasTriple_cons, if_neg ?_]
    intro h
    exact htake z h.2
  · show hasTriple ('\n' :: '\n' :: c :: z) = _
    rw [hasTriple_cons]
    have h1 : ¬ ('\n' = '\n' ∧ ('\n' :: c :: z).take 2 = ['\n', '\n']) := by
      intro h
      have h2 := h.2
      rw [take_two_cons_cons] at h2
      have h3 := (List.cons.inj h2).2
      exact hc (List.cons.inj h3).1
    rw [if_neg h1, hasTriple_cons, if_neg ?_]
    intro h
    exact htake z h.2

theorem collapseAux_hasTriple : ∀ (l : List Char) (n : Nat),
    hasTriple (collapseAux l n) = false := by
  intro l
  induction l with
  | nil =>
    intro n
    exact hasTriple_replicate (Nat.min_le_right n 2)
  | cons a as ih =>
    intro n
    by_cases ha : a = '\n'
    · subst ha
      rw [collapseAux_newline]
      exact ih (n + 1)
    · rw [collapseAux_other ha,
        hasTriple_replicate_cons (Nat.min_le_right n 2) ha, hasTriple_cons]
      have : ¬ (a = '\n' ∧ (collapseAux as 0).take 2 = ['\n', '\n']) := by
        intro ⟨h1, _⟩
        exact ha h1
      rw [if_neg this]
      exact ih 0

theorem collapseAux_eq_self : ∀ {l : List Char} {n : Nat}, n ≤ 2 →
    hasTriple (List.replicate n '\n' ++ l) = false →
    collapseAux l n = List.replicate n '\n' ++ l := by
  intro l
  induction l with
  | nil =>
    intro n hn _
    simp only [collapseAux, List.append_nil]
    rw [Nat.min_eq_left hn]
  | cons a as ih =>
    intro n hn hT
    by_cases ha : a = '\n'
    · subst ha
      rw [collapseAux_newline]
      have hrw : List.replicate n '\n' ++ '\n' :: as = List.replicate (n + 1) '\n' ++ as := by
        rw [List.replicate_succ']
        simp
      have hn1 : n + 1 ≤ 2 := by
        rcases Nat.lt_or_ge n 2 with h2 | h2
        · omega
        · exfalso
          have hn2 : n = 2 := by omega
          subst hn2
          rw [show List.replicate 2 '\n' ++ '\n' :: as = '\n' :: '\n' :: '\n' :: as from rfl,
            hasTriple_cons] at hT
          have : ('\n' : Char) = '\n' ∧ ('\n' :: '\n' :: as).take 2 = ['\n', '\n'] := by
            constructor
            · rfl
            · rfl
          rw [if_pos this] at hT
          exact absurd hT (by simp)
      rw [hrw] at hT ⊢
      exact ih hn1 hT
    · rw [collapseAux_other ha, Nat.min_eq_left hn]
      have hT' : hasTriple as = false := by
        have : List.replicate n '\n' ++ a :: as = (List.replicate n '\n' ++ [a]) ++ as := by
          simp
        rw [this] at hT
        exact hasTriple_append_right hT
      rw [ih (Nat.zero_le 2) (by simpa using hT')]
      rfl

theorem collapse_eq_self {l : List Char} (h : hasTriple l = false) : collapse l = l := by
  have := collapseAux_eq_self (l := l) (Nat.zero_le 2) (by simpa using h)
  simpa [collapse] using this

theorem collapse_idem (l : List Char) : collapse (collapse l) = collapse l :=
  collapse_eq_self (collapseAux_hasTriple l 0)

/-! ### splitB, joinNL and fixCRLF lemmas -/

theorem splitB_nil : splitB [] = [] := rfl

theorem splitB_cons_break {c : Char} (h : isBreak c = true) (cs : List Char) :
    splitB (c :: cs) = [] :: splitB cs := by
  simp [splitB, h]

theorem splitB_cons_other {c : Char} (h : isBreak c = false) (cs : List Char) :
    splitB (c :: cs) = consHead c (splitB cs) := by
  simp [splitB, h]

theorem consHead_ne_nil (c : Char) (L : List (List Char)) : consHead c L ≠ [] := by
  cases L <;> simp [consHead]

theorem splitB_ne_nil {l : List Char} (h : l ≠ []) : splitB l ≠ [] := by
  cases l with
  | nil => exact absurd rfl h
  | cons a as =>
    by_cases hb : isBreak a
    · rw [splitB_cons_break hb]; simp
    · rw [splitB_cons_other (by simpa using hb)]
      exact consHead_ne_nil _ _

theorem mem_consHead {c : Char} {L : List (List Char)} {w : List Char}
    (h : w ∈ consHead c L) :
    (L = [] ∧ w = [c]) ∨ ∃ h' t, L = h' :: t ∧ (w = c :: h' ∨ w ∈ t) := by
  cases L with
  | nil =>
    simp [consHead] at h
    exact Or.inl ⟨rfl, h⟩
  | cons l ls =>
    simp only [consHead, List.mem_cons] at h
    exact Or.inr ⟨l, ls, rfl, h⟩

theorem splitB_line_no_break : ∀ {m : List Char} {ln : List Char}, ln ∈ splitB m →
    ∀ c ∈ ln, isBreak c = false := by
  intro m
  induction m with
  | nil => intro ln h; simp [splitB_nil] at h
  | cons a as ih =>
    intro ln h c hc
    by_cases hb : isBreak a
    · rw [splitB_cons_break hb] at h
      rcases List.mem_cons.mp h with h' | h'
      · subst h'; simp at hc
      · exact ih h' c hc
    · rw [splitB_cons_other (by simpa using hb)] at h
      rcases mem_consHead h with ⟨_, rfl⟩ | ⟨h', t, hL, hw⟩
      · rcases List.mem_singleton.mp hc with rfl
        simpa using hb
      · rcases hw with rfl | hw
        · rcases List.mem_cons.mp hc with rfl | hc'
          · simpa using hb
          · exact ih (hL ▸ List.mem_cons_self _ _) c hc'
        · exact ih (hL ▸ List.mem_cons_of_mem _ hw) c hc

theorem splitB_single : ∀ {m : List Char}, m ≠ [] → (∀ c ∈ m, isBreak c = false) →
    splitB m = [m] := by
  intro m
  induction m with
  | nil => intro h; exact absurd rfl h
  | cons a as ih =>
    intro _ h
    rw [splitB_cons_other (h a (List.mem_cons_self _ _))]
    cases as with
    | nil => rfl
    | cons b bs =>
      rw [ih (by simp) (fun c hc => h c (List.mem_cons_of_mem _ hc))]
      rfl

theorem joinNL_consHead (c : Char) (L : List (List Char)) :
    joinNL (consHead c L) = c :: joinNL L := by
  cases L with
  | nil => rfl
  | cons h t =>
    cases t with
    | nil => rfl
    | cons t2 ts => simp [consHead, joinNL]

theorem joinNL_splitB : ∀ {m : List Char}, (∀ c ∈ m, isBreak c = true → c = '\n') →
    (∀ c, m.getLast? = some c → c ≠ '\n') → joinNL (splitB m) = m := by
  intro m
  induction m with
  | nil => intro _ _; rfl
  | cons a as ih =>
    intro hNL hLast
    by_cases hb : isBreak a
    · have ha : a = '\n' := hNL a (List.mem_cons_self _ _) hb
      subst ha
      rw [splitB_cons_break hb]
      cases as with
      | nil => exact absurd rfl (hLast '\n' rfl)
      | cons b bs =>
        have hne : splitB (b :: bs) ≠ [] := splitB_ne_nil (by simp)
        obtain ⟨x, xs, hx⟩ : ∃ x xs, splitB (b :: bs) = x :: xs := by
          cases hsb : splitB (b :: bs) with
          | nil => exact absurd hsb hne
          | cons x xs => exact ⟨x, xs, rfl⟩
        rw [hx, show joinNL ([] :: x :: xs) = '\n' :: joinNL (x :: xs) from rfl, ← hx,
          ih (fun c hc hbc => hNL c (List.mem_cons_of_mem _ hc) hbc)
            (fun c hc => hLast c (by rw [getLast?_cons_of_ne_nil (by simp)]; exact hc))]
    · rw [splitB_cons_other (by simpa using hb), joinNL_consHead]
      cases as with
      | nil => rfl
      | cons b bs =>
        rw [ih (fun c hc hbc => hNL c (List.mem_cons_of_mem _ hc) hbc)
            (fun c hc => hLast c (by rw [getLast?_cons_of_ne_nil (by simp)]; exact hc))]

theorem mem_joinNL : ∀ {L : List (List Char)} {c : Char}, c ∈ joinNL L →
    c = '\n' ∨ ∃ ln ∈ L, c ∈ ln := by
  intro L
  induction L with
  | nil => intro c h; simp [joinNL] at h
  | cons l ls ih =>
    intro c h
    cases ls with
    | nil =>
      exact Or.inr ⟨l, List.mem_cons_self _ _, h⟩
    | cons l2 ls2 =>
      rw [show joinNL (l :: l2 :: ls2) = l ++ '\n' :: joinNL (l2 :: ls2) from rfl] at h
      rcases List.mem_append.mp h with h' | h'
      · exact Or.inr ⟨l, List.mem_cons_self _ _, h'⟩
      · rcases List.mem_cons.mp h' with rfl | h''
        · exact Or.inl rfl
        · rcases ih h'' with h3 | ⟨ln, hln, hcln⟩
          · exact Or.inl h3
          · exact Or.inr ⟨ln, List.mem_cons_of_mem _ hln, hcln⟩

theorem fixCRLF_eq_self : ∀ {m : List Char}, (∀ c ∈ m, c ≠ '\r') → fixCRLF m = m := by
  intro m
  induction m using fixCRLF.induct with
  | case1 => intro _; rfl
  | case2 c => intro _; rfl
  | case3 c d cs h ih =>
    intro hm
    exact absurd h.1 (hm c (List.mem_cons_self _ _))
  | case4 c d cs h ih =>
    intro hm
    rw [show fixCRLF (c :: d :: cs) = c :: fixCRLF (d :: cs) by
      simp only [fixCRLF]; rw [if_neg h]]
    rw [ih (fun x hx => hm x (List.mem_cons_of_mem _ hx))]

/-! ### stripMarker lemmas -/

theorem markerTail_suffix {l t : List Char} (h : markerTail l = some t) :
    ∃ u, u ++ t = l := by
  have hl : l.takeWhile isSpace ++ l.dropWhile isSpace = l :=
    List.takeWhile_append_dropWhile isSpace l
  rw [markerTail] at h
  split at h
  · exact absurd h (by simp)
  · rename_i c cs hd
    rw [hd] at hl
    split at h
    · -- digit branch
      have hcs : cs.takeWhile Char.isDigit ++ cs.dropWhile Char.isDigit = cs :=
        List.takeWhile_append_dropWhile Char.isDigit cs
      split at h
      · rename_i p t' he
        split at h
        · have ht : t' = t := by simpa using h
          subst ht
          rw [he] at hcs
          refine ⟨l.takeWhile isSpace ++ c :: (cs.takeWhile Char.isDigit ++ [p]), ?_⟩
          conv_rhs => rw [← hl, ← hcs]
          simp
        · exact absurd h (by simp)
      · exact absurd h (by simp)
    · split at h
      · -- glyph branch
        split at h
        · rename_i p t'
          split at h
          · have ht : t' = t := by simpa using h
            subst ht
            refine ⟨l.takeWhile isSpace ++ [c, p], ?_⟩
            conv_rhs => rw [← hl]
            simp
          · exact absurd h (by simp)
        · exact absurd h (by simp)
      · exact absurd h (by simp)

theorem stripMarker_suffix (l : List Char) : ∃ u, u ++ stripMarker l = l := by
  cases hm : markerTail l with
  | none => exact ⟨[], by simp [stripMarker, hm]⟩
  | some t =>
    obtain ⟨u, hu⟩ := markerTail_suffix hm
    obtain ⟨w, _, hw⟩ := pyLstrip_prepend_spaces t
    refine ⟨u ++ w, ?_⟩
    simp only [stripMarker, hm]
    rw [List.append_assoc]
    show u ++ (w ++ pyLstrip t) = l
    rw [hw, hu]

theorem mem_stripMarker {l : List Char} {c : Char} (h : c ∈ stripMarker l) : c ∈ l := by
  obtain ⟨u, hu⟩ := stripMarker_suffix l
  rw [← hu]
  exact List.mem_append_right _ h

/-! ### pySplit lemmas -/

theorem pySplit_nil : pySplit [] = [] := rfl

theorem pySplit_cons_space {c : Char} (h : isSpace c = true) (cs : List Char) :
    pySplit (c :: cs) = pySplit cs := by
  simp [pySplit, h]

theorem pySplit_single_nonspace {c : Char} (h : isSpace c = false) :
    pySplit [c] = [[c]] := by
  simp [pySplit, h]

theorem pySplit_cons_cons_space {c d : Char} (hc : isSpace c = false)
    (hd : isSpace d = true) (ds : List Char) :
    pySplit (c :: d :: ds) = [c] :: pySplit (d :: ds) := by
  simp [pySplit, hc, hd]

theorem pySplit_cons_cons_nonspace {c d : Char} (hc : isSpace c = false)
    (hd : isSpace d = false) (ds : List Char) :
    pySplit (c :: d :: ds) = consHead c (pySplit (d :: ds)) := by
  simp [pySplit, hc, hd]

theorem pySplit_good : ∀ {m w : List Char}, w ∈ pySplit m →
    w ≠ [] ∧ ∀ c ∈ w, isSpace c = false := by
  intro m
  induction m with
  | nil => intro w h; simp [pySplit_nil] at h
  | cons a as ih =>
    intro w h
    by_cases ha : isSpace a
    · rw [pySplit_cons_space ha] at h
      exact ih h
    · have ha' : isSpace a = false := by simpa using ha
      cases as with
      | nil =>
        rw [pySplit_single_nonspace ha'] at h
        rcases List.mem_singleton.mp h with rfl
        refine ⟨by simp, ?_⟩
        intro c hc
        rcases List.mem_singleton.mp hc with rfl
        exact ha'
      | cons d ds =>
        by_cases hd : isSpace d
        · rw [pySplit_cons_cons_space ha' hd] at h
          rcases List.mem_cons.mp h with rfl | h'
          · refine ⟨by simp, ?_⟩
            intro c hc
            rcases List.mem_singleton.mp hc with rfl
            exact ha'
          · exact ih h'
        · rw [pySplit_cons_cons_nonspace ha' (by simpa using hd)] at h
          rcases mem_consHead h with ⟨_, rfl⟩ | ⟨h', t, hL, hw⟩
          · refine ⟨by simp, ?_⟩
            intro c hc
            rcases List.mem_singleton.mp hc with rfl
            exact ha'
          · rcases hw with rfl | hw
            · have hh := ih (hL ▸ List.mem_cons_self h' t)
              refine ⟨by simp, ?_⟩
              intro c hc
              rcases List.mem_cons.mp hc with rfl | hc'
              · exact ha'
              · exact hh.2 c hc'
            · exact ih (hL ▸ List.mem_cons_of_mem _ hw)

theorem pySplit_single_word : ∀ {w : List Char}, w ≠ [] →
    (∀ c ∈ w, isSpace c = false) → pySplit w = [w] := by
  intro w
  induction w with
  | nil => intro h; exact absurd rfl h
  | cons a as ih =>
    intro _ h
    have ha : isSpace a = false := h a (List.mem_cons_self _ _)
    cases as with
    | nil => exact pySplit_single_nonspace ha
    | cons d ds =>
      have hd : isSpace d = false := h d (List.mem_cons_of_mem _ (List.mem_cons_self _ _))
      rw [pySplit_cons_cons_nonspace ha hd,
        ih (by simp) (fun c hc => h c (List.mem_cons_of_mem _ hc))]
      rfl

theorem pySplit_word_append : ∀ {w : List Char} (rest : List Char), w ≠ [] →
    (∀ c ∈ w, isSpace c = false) → pySplit (w ++ ' ' :: rest) = w :: pySplit rest := by
  intro w
  induction w with
  | nil => intro rest h; exact absurd rfl h
  | cons a as ih =>
    intro rest _ h
    have ha : isSpace a = false := h a (List.mem_cons_self _ _)
    cases as with
    | nil =>
      rw [List.cons_append, List.nil_append,
        pySplit_cons_cons_space ha (by rfl), pySplit_cons_space (by rfl)]
    | cons d ds =>
      have hd : isSpace d = false := h d (List.mem_cons_of_mem _ (List.mem_cons_self _ _))
      rw [List.cons_append, List.cons_append, pySplit_cons_cons_nonspace ha hd,
        ← List.cons_append, ih rest (by simp) (fun c hc => h c (List.mem_cons_of_mem _ hc))]
      rfl

/-! ### joinSp lemmas -/

theorem joinSp_ne_nil {ws : List (List Char)} (hne : ws ≠ [])
    (h : ∀ w ∈ ws, w ≠ []) : joinSp ws ≠ [] := by
  cases ws with
  | nil => exact absurd rfl hne
  | cons w ws' =>
    cases ws' with
    | nil => exact h w (List.mem_cons_self _ _)
    | cons w2 ws2 =>
      rw [show joinSp (w :: w2 :: ws2) = w ++ ' ' :: joinSp (w2 :: ws2) from rfl]
      cases hw : w with
      | nil => simp
      | cons a as => simp

theorem joinSp_head? {w : List Char} (ws : List (List Char)) (h : w ≠ []) :
    (joinSp (w :: ws)).head? = w.head? := by
  cases ws with
  | nil => rfl
  | cons w2 ws2 =>
    rw [show joinSp (w :: w2 :: ws2) = w ++ ' ' :: joinSp (w2 :: ws2) from rfl]
    exact head?_append_left h

theorem mem_joinSp : ∀ {ws : List (List Char)} {c : Char}, c ∈ joinSp ws →
    c = ' ' ∨ ∃ w ∈ ws, c ∈ w := by
  intro ws
  induction ws with
  | nil => intro c h; simp [joinSp] at h
  | cons w ws' ih =>
    intro c h
    cases ws' with
    | nil => exact Or.inr ⟨w, List.mem_cons_self _ _, h⟩
    | cons w2 ws2 =>
      rw [show joinSp (w :: w2 :: ws2) = w ++ ' ' :: joinSp (w2 :: ws2) from rfl] at h
      rcases List.mem_append.mp h with h' | h'
      · exact Or.inr ⟨w, List.mem_cons_self _ _, h'⟩
      · rcases List.mem_cons.mp h' with rfl | h''
        · exact Or.inl rfl
        · rcases ih h'' with h3 | ⟨w', hw', hcw'⟩
          · exact Or.inl h3
          · exact Or.inr ⟨w', List.mem_cons_of_mem _ hw', hcw'⟩

theorem joinSp_getLast? : ∀ {ws : List (List Char)}, ws ≠ [] →
    (∀ w ∈ ws, w ≠ [] ∧ ∀ c ∈ w, isSpace c = false) →
    ∃ c, (joinSp ws).getLast? = some c ∧ isSpace c = false := by
  intro ws
  induction ws with
  | nil => intro h; exact absurd rfl h
  | cons w ws' ih =>
    intro _ h
    cases ws' with
    | nil =>
      obtain ⟨c, hc⟩ := exists_getLast?_of_ne_nil (h w (List.mem_cons_self _ _)).1
      exact ⟨c, hc, (h w (List.mem_cons_self _ _)).2 c (getLast?_mem hc)⟩
    | cons w2 ws2 =>
      obtain ⟨c, hc, hcs⟩ := ih (by simp) (fun x hx => h x (List.mem_cons_of_mem _ hx))
      refine ⟨c, ?_, hcs⟩
      rw [show joinSp (w :: w2 :: ws2) = w ++ ' ' :: joinSp (w2 :: ws2) from rfl,
        getLast?_append_right (by simp),
        getLast?_cons_of_ne_nil (joinSp_ne_nil (by simp)
          (fun x hx => (h x (List.mem_cons_of_mem _ hx)).1))]
      exact hc

theorem joinSp_count_words : ∀ {ws : List (List Char)}, ws ≠ [] →
    (∀ w ∈ ws, w ≠ [] ∧ ∀ c ∈ w, isSpace c = false) →
    (pySplit (joinSp ws ++ dots)).length = ws.length := by
  intro ws
  induction ws with
  | nil => intro h; exact absurd rfl h
  | cons w ws' ih =>
    intro _ h
    cases ws' with
    | nil =>
      have hw := h w (List.mem_cons_self _ _)
      rw [show joinSp [w] = w from rfl,
        pySplit_single_word (by cases w <;> simp_all) ?_]
      · rfl
      · intro c hc
        rcases List.mem_append.mp hc with h' | h'
        · exact hw.2 c h'
        · have hc' : c = '.' := by simpa [dots] using h'
          subst hc'
          rfl
    | cons w2 ws2 =>
      have hw := h w (List.mem_cons_self _ _)
      rw [show joinSp (w :: w2 :: ws2) = w ++ ' ' :: joinSp (w2 :: ws2) from rfl,
        List.append_assoc, List.cons_append,
        pySplit_word_append _ hw.1 hw.2, List.length_cons,
        ih (by simp) (fun x hx => h x (List.mem_cons_of_mem _ hx))]
      rfl

/-! ### Shape of the outputs of the normalizer -/

theorem isSpace_newline : isSpace '\n' = true := rfl

theorem head?_mem {l : List Char} {c : Char} (h : l.head? = some c) : c ∈ l := by
  cases l with
  | nil => simp at h
  | cons a as =>
    simp only [List.head?_cons, Option.some.injEq] at h
    subst h
    exact List.mem_cons_self _ _

theorem pyStrip_idem (l : List Char) : pyStrip (pyStrip l) = pyStrip l :=
  pyStrip_eq_self (fun _ h => pyStrip_head? h) (fun _ h => pyStrip_getLast? h)

theorem collapse_stripped {z : List Char} (h1 : ∀ c, z.head? = some c → isSpace c = false)
    (h2 : ∀ c, z.getLast? = some c → isSpace c = false) :
    pyStrip (collapse z) = collapse z := by
  apply pyStrip_eq_self
  · intro c hc
    cases z with
    | nil =>
      rw [show collapse ([] : List Char) = [] from rfl] at hc
      simp at hc
    | cons a as =>
      have ha : isSpace a = false := h1 a rfl
      have ha' : a ≠ '\n' := by
        intro hn
        subst hn
        rw [isSpace_newline] at ha
        exact absurd ha (by simp)
      rw [show collapse (a :: as) = collapseAux (a :: as) 0 from rfl,
        collapseAux_head ha'] at hc
      simp only [Option.some.injEq] at hc
      subst hc
      exact ha
  · intro c hc
    by_cases hz : z = []
    · subst hz
      rw [show collapse ([] : List Char) = [] from rfl] at hc
      simp at hc
    · obtain ⟨b, hb⟩ := exists_getLast?_of_ne_nil hz
      have hbs : isSpace b = false := h2 b hb
      rw [show collapse z = collapseAux z 0 from rfl,
        collapseAux_getLast? hbs 0 hb] at hc
      simp only [Option.some.injEq] at hc
      subst hc
      exact hbs

theorem denumerate_strip (text : List Char) :
    pyStrip (_denumerate text) = _denumerate text := by
  rw [_denumerate]
  exact collapse_stripped (fun _ h => pyStrip_head? h) (fun _ h => pyStrip_getLast? h)

theorem denumerate_collapse (text : List Char) :
    collapse (_denumerate text) = _denumerate text := by
  rw [_denumerate]
  exact collapse_idem _

theorem denumerate_onlyNL (text : List Char) :
    ∀ c ∈ _denumerate text, isBreak c = true → c = '\n' := by
  intro c hc hbc
  rw [_denumerate] at hc
  rcases mem_collapseAux hc with h | h
  · exact h
  · rcases mem_joinNL (pyStrip_mem h) with h' | ⟨ln, hln, hcln⟩
    · exact h'
    · exfalso
      obtain ⟨ln', hln', rfl⟩ := List.mem_map.mp hln
      have hbf : isBreak c = false :=
        splitB_line_no_break hln' c (mem_stripMarker hcln)
      rw [hbf] at hbc
      exact absurd hbc (by simp)

theorem no_cr_of_onlyNL {y : List Char} (h : ∀ c ∈ y, isBreak c = true → c = '\n') :
    ∀ c ∈ y, c ≠ '\r' := by
  intro c hc hcr
  subst hcr
  have := h '\r' hc rfl
  exact absurd this (by decide)

theorem joinNL_splitlines_of {y : List Char} (hNL : ∀ c ∈ y, isBreak c = true → c = '\n')
    (hstrip : pyStrip y = y) : joinNL (splitlines y) = y := by
  rw [splitlines, fixCRLF_eq_self (no_cr_of_onlyNL hNL)]
  apply joinNL_splitB hNL
  intro c hc hcn
  rw [← hstrip] at hc
  have hsp := pyStrip_getLast? hc
  subst hcn
  rw [isSpace_newline] at hsp
  exact absurd hsp (by simp)

theorem trunc_chars {ws : List (List Char)}
    (hgood : ∀ w ∈ ws, w ≠ [] ∧ ∀ c ∈ w, isSpace c = false) :
    ∀ c ∈ pyRstrip (joinSp ws) ++ dots, c = ' ' ∨ isSpace c = false := by
  intro c hc
  rcases List.mem_append.mp hc with h | h
  · rcases mem_joinSp (pyRstrip_mem h) with h' | ⟨w, hw, hcw⟩
    · exact Or.inl h'
    · exact Or.inr ((hgood w hw).2 c hcw)
  · right
    have hc' : c = '.' := by simpa [dots] using h
    subst hc'
    rfl

theorem trunc_no_break {ws : List (List Char)}
    (hgood : ∀ w ∈ ws, w ≠ [] ∧ ∀ c ∈ w, isSpace c = false) :
    ∀ c ∈ pyRstrip (joinSp ws) ++ dots, isBreak c = false := by
  intro c hc
  rcases trunc_chars hgood c hc with rfl | h
  · rfl
  · by_cases hb : isBreak c
    · rw [isSpace_of_isBreak hb] at h
      exact absurd h (by simp)
    · simpa using hb

theorem trunc_no_newline {ws : List (List Char)}
    (hgood : ∀ w ∈ ws, w ≠ [] ∧ ∀ c ∈ w, isSpace c = false) :
    ∀ c ∈ pyRstrip (joinSp ws) ++ dots, c ≠ '\n' := by
  intro c hc hn

  subst hn
  have := trunc_no_break hgood '\n' hc
  exact absurd this (by decide)

theorem trunc_strip {ws : List (List Char)}
    (hgood : ∀ w ∈ ws, w ≠ [] ∧ ∀ c ∈ w, isSpace c = false) :
    pyStrip (pyRstrip (joinSp ws) ++ dots) = pyRstrip (joinSp ws) ++ dots := by
  apply pyStrip_eq_self
  · intro c hc
    cases hR : pyRstrip (joinSp ws) with
    | nil =>
      rw [hR, List.nil_append] at hc
      have h2 : '.' = c := by simpa [dots] using hc
      subst h2
      rfl
    | cons a as =>
      rw [hR, head?_append_left (by simp)] at hc
      simp only [List.head?_cons, Option.some.injEq] at hc
      subst hc
      cases ws with
      | nil =>
        rw [show joinSp [] = [] from rfl, show pyRstrip [] = [] from rfl] at hR
        exact absurd hR (by simp)
      | cons w1 ws1 =>
        have hw1 := hgood w1 (List.mem_cons_self _ _)
        obtain ⟨w', _, hXw⟩ := pyRstrip_append_spaces (joinSp (w1 :: ws1))
        have hhd : (joinSp (w1 :: ws1)).head? = some a := by
          rw [← hXw, head?_append_left (by rw [hR]; simp), hR]
          rfl
        rw [joinSp_head? ws1 hw1.1] at hhd
        exact hw1.2 a (head?_mem hhd)
  · intro c hc
    rw [getLast?_append_right (by simp [dots])] at hc
    have h2 : '.' = c := by simpa [dots] using hc
    subst h2
    rfl

/-! ### Shape of the output of `_clean` -/

theorem clean_take_good (text : List Char) (n : Nat) :
    ∀ w ∈ (pySplit (_denumerate text)).take n, w ≠ [] ∧ ∀ c ∈ w, isSpace c = false :=
  fun _w hw => pySplit_good (List.take_subset _ _ hw)

theorem clean_strip (text : List Char) (n : Nat) :
    pyStrip (_clean text n) = _clean text n := by
  rw [_clean]
  split
  · exact trunc_strip (clean_take_good text n)
  · exact denumerate_strip text

theorem clean_onlyNL (text : List Char) (n : Nat) :
    ∀ c ∈ _clean text n, isBreak c = true → c = '\n' := by
  rw [_clean]
  split
  · intro c hc hbc
    rw [trunc_no_break (clean_take_good text n) c hc] at hbc
    exact absurd hbc (by simp)
  · exact denumerate_onlyNL text

theorem clean_collapse (text : List Char) (n : Nat) :
    collapse (_clean text n) = _clean text n := by
  rw [_clean]
  split
  · exact collapse_eq_self
      (hasTriple_of_no_newline (trunc_no_newline (clean_take_good text n)))
  · exact denumerate_collapse text

theorem denumerate_eq_self_of {y : List Char}
    (h1 : (splitlines y).map stripMarker = splitlines y)
    (hNL : ∀ c ∈ y, isBreak c = true → c = '\n')
    (hstrip : pyStrip y = y) (hcoll : collapse y = y) : _denumerate y = y := by
  rw [_denumerate, h1, joinNL_splitlines_of hNL hstrip, hstrip, hcoll]

theorem clean_wordCount_le (z : List Char) {n : Nat} (hn : 0 < n) :
    wordCount (_clean z n) ≤ n := by
  rw [wordCount, _clean]
  split
  · rename_i h
    have hws : ((pySplit (_denumerate z)).take n).length = n := by
      rw [List.length_take]
      omega
    have hgood := clean_take_good z n
    have hne : (pySplit (_denumerate z)).take n ≠ [] := by
      intro hnil
      rw [hnil] at hws
      simp at hws
      omega
    obtain ⟨c, hc, hcs⟩ := joinSp_getLast? hne hgood
    rw [pyRstrip_eq_self ?_, joinSp_count_words hne hgood, hws]
    intro b hb
    rw [hc] at hb
    simp only [Option.some.injEq] at hb
    subst hb
    exact hcs
  · rename_i h
    omega

/-! ### Fallback matcher lemmas -/

theorem matchRules_mem : ∀ {rules : List (List (List Char) × List Char)}
    {low r : List Char}, matchRules rules low = some r → r ∈ rules.map Prod.snd := by
  intro rules
  induction rules with
  | nil => intro low r h; simp [matchRules] at h
  | cons rule rest ih =>
    intro low r h
    rw [show matchRules (rule :: rest) low =
        if ruleHit low rule = true then some rule.2 else matchRules rest low from rfl] at h
    split at h
    · simp only [Option.some.injEq] at h
      subst h
      simp
    · rw [List.map_cons]
      exact List.mem_cons_of_mem _ (ih h)

theorem matchRules_first : ∀ (pre : List (List (List Char) × List Char))
    (rule : List (List Char) × List Char)
    (post : List (List (List Char) × List Char)) (low : List Char),
    (∀ r' ∈ pre, ruleHit low r' = false) → ruleHit low rule = true →
    matchRules (pre ++ rule :: post) low = some rule.2 := by
  intro pre
  induction pre with
  | nil =>
    intro rule post low _ hh
    rw [List.nil_append,
      show matchRules (rule :: post) low =
        if ruleHit low rule = true then some rule.2 else matchRules post low from rfl,
      if_pos hh]
  | cons p pre' ih =>
    intro rule post low hpre hh
    rw [List.cons_append,
      show matchRules (p :: (pre' ++ rule :: post)) low =
        if ruleHit low p = true then some p.2
        else matchRules (pre' ++ rule :: post) low from rfl,
      if_neg (by rw [hpre p (List.mem_cons_self _ _)]; simp)]
    exact ih rule post low (fun r' hr' => hpre r' (List.mem_cons_of_mem _ hr')) hh

theorem matchRules_none : ∀ {rules : List (List (List Char) × List Char)} {low : List Char},
    (∀ r ∈ rules, ruleHit low r = false) → matchRules rules low = none := by
  intro rules
  induction rules with
  | nil => intro low _; rfl
  | cons rule rest ih =>
    intro low h
    rw [show matchRules (rule :: rest) low =
        if ruleHit low rule = true then some rule.2 else matchRules rest low from rfl,
      if_neg (by rw [h rule (List.mem_cons_self _ _)]; simp)]
    exact ih (fun r hr => h r (List.mem_cons_of_mem _ hr))

theorem fallback_reply_mem (w : List Char) :
    _fallback_reply w ∈ _FALLBACK.map Prod.snd ∨ _fallback_reply w = _DEFAULT_FALLBACK := by
  cases hm : matchRules _FALLBACK (w.map Char.toLower) with
  | none =>
    right
    rw [_fallback_reply, hm]
  | some rep =>
    left
    rw [_fallback_reply, hm]
    exact matchRules_mem hm

theorem fallback_props (w : List Char) :
    _fallback_reply w ≠ [] ∧ wordCount (_fallback_reply w) ≤ 120 ∧
      _clean (_fallback_reply w) 120 = _fallback_reply w := by
  rcases fallback_reply_mem w with h | h
  · simp only [_FALLBACK, List.map_cons, List.map_nil, List.mem_cons,
      List.not_mem_nil, or_false] at h
    rcases h with h|h|h|h <;> rw [h] <;> exact ⟨by decide, by decide, by decide⟩
  · rw [h]
    exact ⟨by decide, by decide, by decide⟩

/-! ### Content preservation of collapse -/

theorem filter_replicate_newline (k : Nat) :
    (List.replicate k '\n').filter (fun c => c != '\n') = [] := by
  induction k with
  | zero => rfl
  | succ m ih => simp [List.replicate_succ, ih]

theorem collapseAux_filter : ∀ (l : List Char) (n : Nat),
    (collapseAux l n).filter (fun c => c != '\n') = l.filter (fun c => c != '\n') := by
  intro l
  induction l with
  | nil =>
    intro n
    rw [show collapseAux [] n = List.replicate (min n 2) '\n' from rfl,
      filter_replicate_newline]
    rfl
  | cons a as ih =>
    intro n
    by_cases ha : a = '\n'
    · subst ha
      rw [collapseAux_newline, ih]
      simp
    · rw [collapseAux_other ha, List.filter_append, filter_replicate_newline,
        List.nil_append]
      simp only [List.filter_cons]
      rw [if_pos (by simpa using ha), if_pos (by simpa using ha), ih]

/-! ### Claim theorems -/

/-- C2 counterexample: the claim asserts that
`normalize("• foo\n- bar", 120)` equals `"foo\nbar"`, i.e. that a bullet
glyph followed by a space is stripped even without a punctuation character;
the marker regex of `_denumerate` requires one of `{., ), -, :}` right after
the glyph, so the code returns a different string. -/
theorem c2_counterexample : _clean (kw "• foo\n- bar") 120 ≠ kw "foo\nbar" := by
  decide

/-- C2 amended: `normalize("• foo\n- bar", 120)` returns the input unchanged,
because a leading bullet glyph (`•` or `-`) is stripped as an enumeration
marker only when it is directly followed by one of the punctuation characters
`{., ), -, :}`; with such punctuation present the marker is stripped, as the
second conjunct illustrates. -/
theorem c2_bullet_needs_punctuation :
    _clean (kw "• foo\n- bar") 120 = kw "• foo\n- bar" ∧
    _clean (kw "•- foo\n-. bar") 120 = kw "foo\nbar" :=
  ⟨by decide, by decide⟩

/-- C5: for every text, `_clean` splits the denumerated text into
whitespace-delimited words; when the word count exceeds `max_words` it keeps
the first `max_words` words, joins them with single spaces, strips trailing
whitespace and appends the literal `"..."`; otherwise it returns the
denumerated text unchanged.  In particular `normalize("a b c d e", 3)`
equals `"a b c..."`. -/
theorem c5_truncation (text : List Char) (n : Nat) :
    _clean text n =
      (if wordCount (_denumerate text) > n then
        pyRstrip (joinSp ((pySplit (_denumerate text)).take n)) ++ dots
      else _denumerate text) ∧
    _clean (kw "a b c d e") 3 = kw "a b c..." :=
  ⟨rfl, by decide⟩

/-- C6: `normalize("1. Item A\n2. Item B", 120)` equals `"Item A\nItem B"`,
and marker removal is line-anchored: `stripMarker` only ever removes a
leading segment of a line (its output is a suffix of the line), so markers
appearing mid-line are never touched. -/
theorem c6_line_anchored :
    _clean (kw "1. Item A\n2. Item B") 120 = kw "Item A\nItem B" ∧
    ∀ ln : List Char, ∃ u, u ++ stripMarker ln = ln :=
  ⟨by decide, stripMarker_suffix⟩

/-- C7: after marker removal and whole-result trimming, the normalizer
collapses every run of 3-or-more newlines down to exactly 2:
`normalize("A\n\n\n\nB", 120) = "A\n\nB"`; the output of `_denumerate` never
contains three consecutive newlines; and `collapse` preserves all
non-newline characters in order. -/
theorem c7_collapse_blank_lines :
    _clean (kw "A\n\n\n\nB") 120 = kw "A\n\nB" ∧
    (∀ text : List Char, hasTriple (_denumerate text) = false) ∧
    (∀ l : List Char,
      (collapse l).filter (fun c => c != '\n') = l.filter (fun c => c != '\n')) :=
  ⟨by decide, fun text => collapseAux_hasTriple _ 0, fun l => collapseAux_filter l 0⟩

/-- C8: `normalize` is idempotent under the stated preconditions: once the
normalized result has word count at most `N` and no enumeration markers
remain in it (every line of the result is unchanged by marker removal),
applying `normalize` again returns it unchanged:
`normalize(normalize(x, N), N) = normalize(x, N)`. -/
theorem c8_idempotent (x : List Char) (N : Nat)
    (h1 : (splitlines (_clean x N)).map stripMarker = splitlines (_clean x N))
    (h2 : wordCount (_clean x N) ≤ N) :
    _clean (_clean x N) N = _clean x N := by
  have hd : _denumerate (_clean x N) = _clean x N :=
    denumerate_eq_self_of h1 (clean_onlyNL x N) (clean_strip x N) (clean_collapse x N)
  rw [show _clean (_clean x N) N =
      if (pySplit (_denumerate (_clean x N))).length > N then
        pyRstrip (joinSp ((pySplit (_denumerate (_clean x N))).take N)) ++ dots
      else _denumerate (_clean x N) from rfl, hd]
  rw [if_neg ?_]
  simp only [wordCount] at h2
  omega

/-- C8 witness: a concrete instance of the idempotence theorem. -/
theorem c8_witness :
    (splitlines (_clean (kw "1. alpha\n\n\n\n2. beta") 120)).map stripMarker =
        splitlines (_clean (kw "1. alpha\n\n\n\n2. beta") 120) ∧
    wordCount (_clean (kw "1. alpha\n\n\n\n2. beta") 120) ≤ 120 ∧
    _clean (_clean (kw "1. alpha\n\n\n\n2. beta") 120) 120 =
      _clean (kw "1. alpha\n\n\n\n2. beta") 120 :=
  ⟨by decide, by decide, c8_idempotent (kw "1. alpha\n\n\n\n2. beta") 120
    (by decide) (by decide)⟩

/-- C9 counterexample: the implicit claim quantifies over texts with at
least one whitespace-delimited word; `"1."` is such a text (one word), yet
`normalize("1.", 0)` returns the empty string, not `"..."`, because
denumeration first removes the marker-only line and the zero-word result
short-circuits the truncation branch. -/
theorem c9_counterexample :
    1 ≤ wordCount (kw "1.") ∧ _clean (kw "1.") 0 ≠ kw "..." := by
  constructor
  · decide
  · decide

/-- C9 amended: for every text whose denumerated (marker-stripped) form
still contains at least one word, `normalize(text, 0)` returns exactly
`"..."`, which itself counts as one word and therefore exceeds the zero
word budget. -/
theorem c9_zero_budget :
    (∀ text : List Char, 1 ≤ wordCount (_denumerate text) → _clean text 0 = dots) ∧
    wordCount dots = 1 ∧ dots = kw "..." := by
  refine ⟨?_, by decide, by decide⟩
  intro text h
  rw [_clean, if_pos ?_, List.take_zero]
  · rfl
  · simp only [wordCount] at h
    omega

/-- C9 witness: a concrete instance of the amended zero-budget theorem. -/
theorem c9_witness : _clean (kw "a b") 0 = dots :=
  c9_zero_budget.1 (kw "a b") (by decide)

/-- C10: marker removal strips at most one leading enumeration marker per
line per application, so without the spec's preconditions `normalize` is not
idempotent: on `"1. 2. foo"` with budget 120 the first application yields
`"2. foo"`, the second `"foo"`, and the two results differ. -/
theorem c10_single_marker_strip :
    _clean (kw "1. 2. foo") 120 = kw "2. foo" ∧
    _clean (kw "2. foo") 120 = kw "foo" ∧
    _clean (_clean (kw "1. 2. foo") 120) 120 ≠ _clean (kw "1. 2. foo") 120 :=
  ⟨by decide, by decide, by decide⟩

/-- C3: `_fallback_reply` lowercases the text and scans the rule table in its
fixed order: whenever the table splits as `pre ++ rule :: post` with no rule
of `pre` hitting the lowered text and `rule` hitting it, the reply is exactly
`rule`'s canned reply (first match wins); when no rule hits, the default
reply is returned; for every input the result is non-empty and is either a
rule reply or the default (and, being a total function, the matcher never
raises). -/
theorem c3_first_match (text : List Char) :
    _fallback_reply text ≠ [] ∧
    (_fallback_reply text ∈ _FALLBACK.map Prod.snd ∨
      _fallback_reply text = _DEFAULT_FALLBACK) ∧
    (∀ pre rule post, _FALLBACK = pre ++ rule :: post →
      (∀ r' ∈ pre, ruleHit (text.map Char.toLower) r' = false) →
      ruleHit (text.map Char.toLower) rule = true →
      _fallback_reply text = rule.2) ∧
    ((∀ r ∈ _FALLBACK, ruleHit (text.map Char.toLower) r = false) →
      _fallback_reply text = _DEFAULT_FALLBACK) := by
  refine ⟨(fallback_props text).1, fallback_reply_mem text, ?_, ?_⟩
  · intro pre rule post hsplit hpre hh
    rw [_fallback_reply, hsplit, matchRules_first pre rule post _ hpre hh]
  · intro h
    rw [_fallback_reply, matchRules_none h]

/-- C3 witness: the curriculum question matches the first rule (keyword
`"currículo"`), and a keyword-free question falls through to the default. -/
theorem c3_witness :
    _fallback_reply (kw "Como monto meu currículo?") =
      (_FALLBACK.get ⟨0, by decide⟩).2 ∧
    _fallback_reply (kw "pergunta qualquer sem palavras-chave") =
      _DEFAULT_FALLBACK :=
  ⟨(c3_first_match (kw "Como monto meu currículo?")).2.2.1
      [] (_FALLBACK.get ⟨0, by decide⟩) (_FALLBACK.drop 1) (by rfl)
      (by intro r' hr'; simp at hr') (by decide),
   (c3_first_match (kw "pergunta qualquer sem palavras-chave")).2.2.2 (by decide)⟩

/-- C4: the orchestrator rejects with `InvalidRequest` (HTTP 400) exactly
when the message is empty or whitespace-only after trimming; and when the
collaborator raises, the reply is the fallback matcher's output for the
(trimmed) message, returned as-is — not passed through the normalizer — so
the collaborator's exception is never propagated (the orchestrator is a
total function into `ChatResult`). -/
theorem c4_reject_and_soft_fail (msg : List Char) :
    (∀ model, api_chat msg model = ChatResult.invalidRequest ↔ pyStrip msg = []) ∧
    (pyStrip msg ≠ [] →
      api_chat msg (some (Except.error ())) =
        ChatResult.reply (_fallback_reply (pyStrip msg))) := by
  constructor
  · intro model
    constructor
    · intro h
      by_contra hne
      simp only [api_chat] at h
      rw [if_neg hne] at h
      cases model with
      | none => simp at h
      | some e => cases e <;> simp at h
    · intro h
      simp only [api_chat]
      rw [if_pos h]
  · intro h
    simp only [api_chat]
    rw [if_neg h]

/-- C4 witness: a whitespace-only message is rejected, and a concrete
collaborator exception yields the fallback reply. -/
theorem c4_witness :
    api_chat (kw "   ") none = ChatResult.invalidRequest ∧
    api_chat (kw "oi") (some (Except.error ())) =
      ChatResult.reply (_fallback_reply (pyStrip (kw "oi"))) :=
  ⟨((c4_reject_and_soft_fail (kw "   ")).1 none).mpr (by decide),
   (c4_reject_and_soft_fail (kw "oi")).2 (by decide)⟩

/-- C1 counterexample: the claim asserts every accepted request yields a
non-empty reply; but for the accepted message `"oi"` with a collaborator
that returns the marker-only text `"1."`, the orchestrator replies with the
empty string (normalization erases the whole text). -/
theorem c1_counterexample :
    pyStrip (kw "oi") ≠ [] ∧
    api_chat (kw "oi") (some (Except.ok (kw "1."))) = ChatResult.reply [] :=
  ⟨by decide, by decide⟩

/-- C1 amended: for every accepted chat request (non-empty message after
trimming) the orchestrator returns a reply whose whitespace-delimited word
count is at most the configured budget of 120 (the ellipsis suffix attaches
to the last kept word when truncation occurred); the reply can only be empty
when the collaborator succeeded with a non-blank text whose normalization is
the empty string — on the fallback paths the reply is always non-empty. -/
theorem c1_word_budget (msg : List Char) (model : Option (Except Unit (List Char)))
    (h : pyStrip msg ≠ []) :
    ∃ r, api_chat msg model = ChatResult.reply r ∧ wordCount r ≤ 120 ∧
      (r = [] → ∃ t, model = some (Except.ok t) ∧ pyStrip t ≠ [] ∧
        _clean (pyStrip t) 120 = []) := by
  simp only [api_chat]
  rw [if_neg h]
  cases model with
  | none =>
    refine ⟨_, rfl, (fallback_props _).2.1, ?_⟩
    intro hr
    exact absurd hr (fallback_props _).1
  | some e =>
    cases e with
    | error u =>
      refine ⟨_, rfl, (fallback_props _).2.1, ?_⟩
      intro hr
      exact absurd hr (fallback_props _).1
    | ok t =>
      refine ⟨_clean (if pyStrip t = [] then _fallback_reply (pyStrip msg)
          else pyStrip t) 120, rfl, clean_wordCount_le _ (by omega), ?_⟩
      intro hr
      by_cases ht : pyStrip t = []
      · rw [if_pos ht, (fallback_props _).2.2] at hr
        exact absurd hr (fallback_props _).1
      · rw [if_neg ht] at hr
        exact ⟨t, rfl, ht, hr⟩

/-- C1 witness: a concrete accepted request on the fallback path. -/
theorem c1_witness :
    pyStrip (kw "oi") ≠ [] ∧
    ∃ r, api_chat (kw "oi") none = ChatResult.reply r ∧ wordCount r ≤ 120 ∧
      (r = [] → ∃ t, (none : Option (Except Unit (List Char))) =
          some (Except.ok t) ∧ pyStrip t ≠ [] ∧ _clean (pyStrip t) 120 = []) :=
  ⟨by decide, c1_word_budget (kw "oi") none (by decide)⟩
